import Mathlib

/-!
Verification of the Badger-backed MKVS node database (`badgerNodeDB`) against its
natural-language specification.  The definitions below are a shallow embedding of
the source file containing `badgerNodeDB` (package `badger`): pure decision logic
becomes Lean functions, the mutable database becomes an explicit `DBState` value
that is passed and returned, and fallible operations return `Except DBError`.

Modelling conventions, stated once:
* 32-byte content hashes and namespaces are opaque and modelled as `Nat`;
  the well-known empty hash is modelled as `0`.
* The backing store's MVCC timestamps are modelled by tagging each node record and
  each `rootNode` marker with the version at which it was written; a read at
  version `v` sees a record iff its write version is `≤ v`.  Metadata records
  (roots metadata, updated-node records, the metadata record, the multipart log)
  all live at the single metadata timestamp and are always visible.
* Node values are opaque (`Nat`): the external node serializer/deserializer is out
  of scope per the spec, so storing and returning a node is modelled as storing
  and returning its opaque value.
* Go maps are modelled as association lists (for CBOR-serialized maps whose entry
  order is part of the stored value) or as `Finset`s (for the transient sets
  `finalizedRoots`, `maybeLoneNodes`, `notLoneNodes`, whose iteration order does
  not affect any result proved here).
-/

set_option maxRecDepth 8000

/-- Content hash of a node (32 bytes in the source, opaque here). -/
abbrev Hash := Nat

/-- The distinguished empty hash (`hash.Hash.IsEmpty`). -/
def emptyHash : Hash := 0

/-- Root type tag (`node.RootType`): invalid, state, or I/O. -/
inductive RootType where
  | invalid
  | state
  | io
  deriving DecidableEq

/-- Typed hash (`api.TypedHash`): the `(type, hash)` fingerprint used as the
identity key in roots metadata. -/
structure TypedHash where
  typ : RootType
  hash : Hash
  deriving DecidableEq

/-- A storage root (`node.Root`): namespace, version, type and hash. -/
structure Root where
  ns : Nat
  version : Nat
  typ : RootType
  hash : Hash
  deriving DecidableEq

/-- `api.TypedHashFromRoot`: fingerprint of a root. -/
def TypedHash.fromRoot (r : Root) : TypedHash := ⟨r.typ, r.hash⟩

/-- Entry of a root's updated-nodes record (`updatedNode`): a node hash together
with whether the node was logically removed. -/
structure UpdatedNode where
  removed : Bool
  hash : Hash
  deriving DecidableEq

/-- Roots metadata for one version (`rootsMetadata.Roots`): map from a root
fingerprint to the list of root fingerprints derived from it. -/
abbrev RootsMeta := List (TypedHash × List TypedHash)

/-- The serialized metadata record (`metadata.value`): earliest version, optional
last finalized version, and the multipart restore version (`0` when none). -/
structure Metadata where
  earliestVersion : Nat
  lastFinalizedVersion : Option Nat
  multipartVersion : Nat
  deriving DecidableEq

/-- A stored node record: `node(hash)` key, the version whose timestamp the write
used, and the opaque serialized value. -/
structure NodeRec where
  hash : Hash
  writeVersion : Nat
  value : Nat
  deriving DecidableEq

/-- A stored `rootNode(typedHash)` marker together with its write version. -/
structure RootMark where
  th : TypedHash
  writeVersion : Nat
  deriving DecidableEq

/-- A stored write-log key `writelog(version, newRoot, oldRoot)`.  The CBOR value
is irrelevant to the claims proved here, so only keys are modelled. -/
structure WLKey where
  version : Nat
  newRoot : TypedHash
  oldRoot : TypedHash
  deriving DecidableEq

/-- The whole database state of `badgerNodeDB`: configuration, the in-memory
multipart version, the metadata record, and the persisted keyspaces. -/
structure DBState where
  readOnly : Bool
  discardWriteLogs : Bool
  ns : Nat
  multipartVersion : Nat
  meta : Metadata
  nodes : List NodeRec
  rootNodes : List RootMark
  writeLogs : List WLKey
  rootUpdatedNodes : List ((Nat × TypedHash) × List UpdatedNode)
  rootsMetas : List (Nat × RootsMeta)
  multipartLog : List TypedHash
  deriving DecidableEq

/-- Error kinds returned by the engine (`api.Err*`, plus the two ad-hoc `fmt.Errorf`
failures of `Finalize` and the panic on corrupted updated-node records). -/
inductive DBError where
  | badNamespace
  | nodeNotFound
  | rootNotFound
  | writeLogNotFound
  | rootMustFollowOld
  | previousVersionMismatch
  | notFinalized
  | alreadyFinalized
  | notEarliest
  | cannotPruneLatestVersion
  | multipartInProgress
  | invalidMultipartVersion
  | readOnly
  | needRoots
  | versionMismatch
  | corrupted
  deriving DecidableEq

/-- Decidable equality of `Except` results (not provided by the core library). -/
instance {e a : Type} [DecidableEq e] [DecidableEq a] : DecidableEq (Except e a) := fun x y =>
  match x, y with
  | .ok v, .ok w =>
    if h : v = w then .isTrue (by rw [h]) else .isFalse (fun hh => h (Except.ok.inj hh))
  | .error v, .error w =>
    if h : v = w then .isTrue (by rw [h]) else .isFalse (fun hh => h (Except.error.inj hh))
  | .ok _, .error _ => .isFalse (fun hh => Except.noConfusion hh)
  | .error _, .ok _ => .isFalse (fun hh => Except.noConfusion hh)

/-- First-match association-list lookup (Go map read). -/
def lookupKey {α β : Type} [DecidableEq α] : List (α × β) → α → Option β
  | [], _ => none
  | p :: t, k => if p.1 = k then some p.2 else lookupKey t k

/-- Association-list update: replace the first binding of `k`, or append one. -/
def updateKey {α β : Type} [DecidableEq α] : List (α × β) → α → β → List (α × β)
  | [], k, v => [(k, v)]
  | p :: t, k, v => if p.1 = k then (k, v) :: t else p :: updateKey t k v

/-- `loadRootsMetadata`: the roots metadata stored for a version, or a fresh empty
map when the key is absent. -/
def loadRootsMetadata (st : DBState) (version : Nat) : RootsMeta :=
  (lookupKey st.rootsMetas version).getD []

/-- Modelled from the spec: `node.Root.Follows` is defined in the tree-node
package, which is not part of the embedded source.  Per §3 invariant 6 and §4.5,
a root follows its old root when the namespaces agree and either the old root is
the empty root or the old root's version does not exceed the new root's version. -/
def Root.follows (r old : Root) : Bool :=
  r.ns == old.ns && (old.hash == emptyHash || decide (old.version ≤ r.version))

/-- Modelled from the spec: the metadata helper `setLastFinalizedVersion` lives in
a sibling source file that is not under `src/`.  Per §3 (invariant
`earliest_version ≤ last_finalized_version + 1`) and scenario S5 — where after
finalizing versions 1, 2, 3 on a fresh database `Prune(1)` succeeds, which
requires `earliest_version = 1` — it records the new last finalized version and,
on the very first finalization, initializes the earliest version to it. -/
def setLastFinalizedVersion (m : Metadata) (version : Nat) : Metadata :=
  { m with
    lastFinalizedVersion := some version
    earliestVersion :=
      match m.lastFinalizedVersion with
      | none => version
      | some _ => m.earliestVersion }

/-! ### Finalize: the upward closure of the finalized-root set (lines 570-600) -/

/-- The treatment of one roots-metadata entry by the closure loop of `Finalize`:
mark the entry's root finalized when it is not yet finalized and one of its
derived roots is. -/
def closureStep (acc : Finset TypedHash) (p : TypedHash × List TypedHash) :
    Finset TypedHash :=
  if p.1 ∉ acc ∧ p.2.any (fun d => decide (d ∈ acc)) then insert p.1 acc else acc

/-- One full pass of the closure loop in `Finalize`: for every entry
`rootHash → derivedRoots` of the roots metadata, in order, mark `rootHash`
finalized as soon as one of its derived roots already is. -/
def closurePass (rm : RootsMeta) (s : Finset TypedHash) : Finset TypedHash :=
  rm.foldl closureStep s

/-- The `for updated := true; updated;` loop of `Finalize`: repeat `closurePass`
until it no longer changes the set (with explicit fuel). -/
def closureIter : Nat → RootsMeta → Finset TypedHash → Finset TypedHash
  | 0, _, s => s
  | n + 1, rm, s =>
    let sNext := closurePass rm s
    if sNext = s then s else closureIter n rm sNext

/-- The set of finalized roots computed by `Finalize` from the input roots'
fingerprints: iterate `closurePass` to its fixed point.  `rm.length + 1` passes
always suffice, because a pass that changes the set adds at least one key of
`rm` to it. -/
def finalizedSet (rm : RootsMeta) (seeds : Finset TypedHash) : Finset TypedHash :=
  closureIter (rm.length + 1) rm seeds

/-- Reachability along derived-root edges: a fingerprint reaches the seed set if
it is a seed, or one of its derived roots (per the roots metadata) does. -/
inductive Reaches (rm : RootsMeta) (seeds : Finset TypedHash) : TypedHash → Prop
  | seed {r : TypedHash} : r ∈ seeds → Reaches rm seeds r
  | step {r d : TypedHash} {ds : List TypedHash} :
      (r, ds) ∈ rm → d ∈ ds → Reaches rm seeds d → Reaches rm seeds r

/-! ### Finalize: the main body (lines 535-720) -/

/-- The two version checks of `Finalize` (lines 559-567), in source order: the
not-finalized check for the previous version fires only when no multipart restore
is active, the version is positive, a last finalized version exists and it is
smaller than `version - 1`; otherwise the already-finalized check fires when a
last finalized version exists and the version does not exceed it. -/
def finalizeVersionCheck (mv : Nat) (lastFin : Option Nat) (version : Nat) :
    Option DBError :=
  match lastFin with
  | none => none
  | some l =>
    if mv = 0 ∧ 0 < version ∧ l < version - 1 then some DBError.notFinalized
    else if version ≤ l then some DBError.alreadyFinalized
    else none

/-- The updated-node records of every root of the roots metadata, in order; `none`
when any record is missing (the source panics on a corrupted/missing record). -/
def collectUpdated (st : DBState) (version : Nat) :
    RootsMeta → Option (List (TypedHash × List UpdatedNode))
  | [] => some []
  | p :: t =>
    match lookupKey st.rootUpdatedNodes (version, p.1), collectUpdated st version t with
    | some us, some rest => some ((p.1, us) :: rest)
    | _, _ => none

/-- The maybe-lone / not-lone node-hash sets accumulated by the root walk of
`Finalize` (lines 607-650): a finalized root contributes its removed hashes to
`maybeLone` and its non-removed hashes to `notLone`; an unfinalized root
contributes its non-removed hashes to `maybeLone`. -/
def scanStep (s : Finset TypedHash) (acc : Finset Hash × Finset Hash)
    (p : TypedHash × List UpdatedNode) : Finset Hash × Finset Hash :=
  if p.1 ∈ s then
    (acc.1 ∪ ((p.2.filter (fun u => u.removed)).map (fun u => u.hash)).toFinset,
     acc.2 ∪ ((p.2.filter (fun u => !u.removed)).map (fun u => u.hash)).toFinset)
  else
    (acc.1 ∪ ((p.2.filter (fun u => !u.removed)).map (fun u => u.hash)).toFinset,
     acc.2)

/-- The full root walk: fold `scanStep` over the updated-node records of all
roots of the version. -/
def finalizeScan (s : Finset TypedHash) (entries : List (TypedHash × List UpdatedNode)) :
    Finset Hash × Finset Hash :=
  entries.foldl (scanStep s) (∅, ∅)

/-- The node-hash sets computed by `Finalize` together with the node deletions it
issues (`maybeLone \ notLone`). -/
structure FinalizeEffects where
  maybeLone : Finset Hash
  notLone : Finset Hash
  deletedNodes : Finset Hash
  deriving DecidableEq

/-- The keys of a roots-metadata map. -/
def keysOf (rm : RootsMeta) : List TypedHash := rm.map (fun p => p.1)

/-- The effect part of `Finalize` (lines 607-720), applied once the finalized
set and all updated-node records are at hand: delete the lone nodes
(`maybeLone \\ notLone`), keep only finalized roots in the roots metadata, drop
the write logs of removed roots (unless write logs are discarded anyway), drop
all updated-node records of the version, advance the last finalized version and
clean multipart state (with `removeNodes = false`, so only the multipart log
entries are dropped and the multipart version reset). -/
def finalizeApply (st : DBState) (version : Nat) (s : Finset TypedHash)
    (rm : RootsMeta) (entries : List (TypedHash × List UpdatedNode)) :
    Except DBError FinalizeEffects × DBState :=
  let scan := finalizeScan s entries
  let lone := scan.1 \ scan.2
  let unfin : List TypedHash := (keysOf rm).filter (fun t => decide (t ∉ s))
  let rmNew : RootsMeta := rm.filter (fun p => decide (p.1 ∈ s))
  let nodesNew := st.nodes.filter (fun rec => decide (rec.hash ∉ lone))
  let wlNew :=
    if st.discardWriteLogs then st.writeLogs
    else
      st.writeLogs.filter
        (fun k => !(k.version == version && unfin.any (fun t => t == k.newRoot)))
  let updNew :=
    st.rootUpdatedNodes.filter
      (fun q => !(q.1.1 == version && (keysOf rm).any (fun t => t == q.1.2)))
  let meta1 := setLastFinalizedVersion st.meta version
  let stOut :=
    if st.multipartVersion ≠ 0 then
      { st with
        nodes := nodesNew, writeLogs := wlNew, rootUpdatedNodes := updNew,
        rootsMetas := updateKey st.rootsMetas version rmNew,
        meta := { meta1 with multipartVersion := 0 },
        multipartLog := [], multipartVersion := 0 }
    else
      { st with
        nodes := nodesNew, writeLogs := wlNew, rootUpdatedNodes := updNew,
        rootsMetas := updateKey st.rootsMetas version rmNew,
        meta := meta1 }
  (.ok { maybeLone := scan.1, notLone := scan.2, deletedNodes := lone }, stOut)

/-- The body of `Finalize` after the read-only, root-list, multipart and version
checks: compute the finalized-set closure, sanity-check that every finalized
root is known or empty, load every root's updated-node record (panic — modelled
as the `corrupted` error — when one is missing), then apply the effects. -/
def finalizeBody (st : DBState) (version : Nat) (seeds : Finset TypedHash) :
    Except DBError FinalizeEffects × DBState :=
  let rm := loadRootsMetadata st version
  let s := finalizedSet rm seeds
  if ∃ t ∈ s, lookupKey rm t = none ∧ ¬t.hash = emptyHash then
    (.error .rootNotFound, st)
  else
    match collectUpdated st version rm with
    | none => (.error .corrupted, st)
    | some entries => finalizeApply st version s rm entries

/-- `badgerNodeDB.Finalize`: refuse on read-only, require at least one root, take
the first root's version, check the multipart version, run the version checks,
require all roots to share the version, and hand over to `finalizeBody`.  Error
returns leave the state unchanged (the source returns before flushing anything). -/
def finalize (st : DBState) (roots : List Root) :
    Except DBError FinalizeEffects × DBState :=
  if st.readOnly then (.error .readOnly, st)
  else
    match roots with
    | [] => (.error .needRoots, st)
    | r :: _ =>
      let version := r.version
      if st.multipartVersion ≠ 0 ∧ st.multipartVersion ≠ version then
        (.error .invalidMultipartVersion, st)
      else
        match finalizeVersionCheck st.multipartVersion st.meta.lastFinalizedVersion version with
        | some e => (.error e, st)
        | none =>
          if roots.any (fun q => decide (q.version ≠ version)) then
            (.error .versionMismatch, st)
          else
            finalizeBody st version ((roots.map TypedHash.fromRoot).toFinset)

/-! ### Read-side operations: GetNode, HasRoot, GetRootsForVersion (lines 276-533) -/

/-- Whether the `rootNode` marker of a root is visible at the root's version
timestamp (`checkRoot`). -/
def rootMarkVisible (st : DBState) (root : Root) : Bool :=
  st.rootNodes.any
    (fun m => m.th == TypedHash.fromRoot root && decide (m.writeVersion ≤ root.version))

/-- Read of a `node(hash)` record at a version timestamp: the stored value, if a
record with that hash is visible at the version. -/
def nodeLookup (st : DBState) (version : Nat) (h : Hash) : Option Nat :=
  (st.nodes.find? (fun rec => rec.hash == h && decide (rec.writeVersion ≤ version))).map
    (fun rec => rec.value)

/-- Result of `GetNode`. -/
inductive NodeResult where
  | badNamespace
  | nodeNotFound
  | rootNotFound
  | ok (value : Nat)
  deriving DecidableEq

/-- `badgerNodeDB.GetNode` for a clean non-nil pointer with hash `ptrHash` (the
source panics on nil or dirty pointers before any of this logic runs): namespace
check, pruned-version check, root-existence check at the root's version
timestamp, then the node fetch. -/
def getNode (st : DBState) (root : Root) (ptrHash : Hash) : NodeResult :=
  if root.ns ≠ st.ns then .badNamespace
  else if root.version < st.meta.earliestVersion then .nodeNotFound
  else if !rootMarkVisible st root then .rootNotFound
  else
    match nodeLookup st root.version ptrHash with
    | none => .nodeNotFound
    | some v => .ok v

/-- `badgerNodeDB.HasRoot`: namespace check, implicit presence of the empty root,
pruned-version check, then membership in the version's roots metadata. -/
def hasRoot (st : DBState) (root : Root) : Bool :=
  if root.ns ≠ st.ns then false
  else if root.hash = emptyHash then true
  else if root.version < st.meta.earliestVersion then false
  else ((loadRootsMetadata st root.version).any (fun p => p.1 == TypedHash.fromRoot root))

/-- `badgerNodeDB.GetRootsForVersion`: empty below the earliest version, otherwise
one root (in the engine's namespace) per entry of the version's roots metadata. -/
def getRootsForVersion (st : DBState) (version : Nat) : List Root :=
  if version < st.meta.earliestVersion then []
  else (loadRootsMetadata st version).map (fun p => ⟨st.ns, version, p.1.typ, p.1.hash⟩)

/-! ### GetWriteLog (lines 324-473) -/

/-- The old-root fingerprints of all stored write logs whose key is
`writelog(v, cur, ·)` — the edges followed by the `GetWriteLog` search. -/
def wlEdges (logs : List WLKey) (v : Nat) (cur : TypedHash) : List TypedHash :=
  (logs.filter (fun k => k.version == v && k.newRoot == cur)).map (fun k => k.oldRoot)

/-- The breadth-first search of `GetWriteLog` over the queue of
`(depth, endRootHash)` items: dequeue an item, look at every write log ending in
it; a log whose old root is the start root means a path was found; otherwise the
old roots are enqueued when their depth stays below `maxAllowedHops = 2`.  The
fuel argument only bounds the number of dequeues; `logs.length + 2` dequeues
always suffice from the initial queue (proved below). -/
def wlBFS (logs : List WLKey) (v : Nat) (startH : TypedHash) :
    Nat → List (Nat × TypedHash) → Bool
  | _, [] => false
  | 0, _ :: _ => false
  | fuel + 1, (d, cur) :: rest =>
    let nexts := wlEdges logs v cur
    if nexts.any (fun n => n == startH) then true
    else
      wlBFS logs v startH fuel
        (rest ++ (if d + 1 < 2 then nexts.map (fun n => (d + 1, n)) else []))

/-- Existence of a chain of one or two stored write-log records at version `v`
leading from `startH` up to `endH`: either a single record
`writelog(v, endH, startH)`, or a middle fingerprint `m` with records
`writelog(v, endH, m)` and `writelog(v, m, startH)`. -/
def wlChainLe2 (logs : List WLKey) (v : Nat) (startH endH : TypedHash) : Bool :=
  logs.any (fun k => k == ⟨v, endH, startH⟩) ||
    logs.any
      (fun k =>
        k.version == v && k.newRoot == endH &&
          logs.any (fun k2 => k2 == ⟨v, k.oldRoot, startH⟩))

/-- Result of `GetWriteLog`; `found` stands for the successful return of a
write-log iterator. -/
inductive WLResult where
  | writeLogNotFound
  | rootMustFollowOld
  | badNamespace
  | rootNotFound
  | found
  deriving DecidableEq

/-- `badgerNodeDB.GetWriteLog`: discarded write logs, the follows check, the
namespace check on the start root, the pruned-version check on the end root, the
root-existence check on the end root, and then the bounded search for a path of
stored write logs from the end root back to the start root. -/
def getWriteLog (st : DBState) (startRoot endRoot : Root) : WLResult :=
  if st.discardWriteLogs then .writeLogNotFound
  else if !Root.follows endRoot startRoot then .rootMustFollowOld
  else if startRoot.ns ≠ st.ns then .badNamespace
  else if endRoot.version < st.meta.earliestVersion then .writeLogNotFound
  else if !rootMarkVisible st endRoot then .rootNotFound
  else if
    wlBFS st.writeLogs endRoot.version (TypedHash.fromRoot startRoot)
      (st.writeLogs.length + 2) [(0, TypedHash.fromRoot endRoot)]
  then .found
  else .writeLogNotFound

/-! ### Prune checks (lines 722-746) -/

/-- Result of the precondition section of `Prune`.  The tree traversal that
follows a `proceed` outcome relies on the externally supplied node visitor and
cannot change which of these errors is returned. -/
inductive PruneResult where
  | readOnly
  | multipartInProgress
  | notFinalized
  | notEarliest
  | cannotPruneLatestVersion
  | proceed
  deriving DecidableEq

/-- The precondition checks of `badgerNodeDB.Prune`, in source order: read-only,
multipart in progress, version finalized, version is the earliest, version is not
the last finalized one. -/
def pruneCheck (st : DBState) (version : Nat) : PruneResult :=
  if st.readOnly then .readOnly
  else if st.multipartVersion ≠ 0 then .multipartInProgress
  else
    match st.meta.lastFinalizedVersion with
    | none => .notFinalized
    | some lastFin =>
      if lastFin < version then .notFinalized
      else if version ≠ st.meta.earliestVersion then .notEarliest
      else if version = lastFin then .cannotPruneLatestVersion
      else .proceed

/-! ### StartMultipartInsert (lines 839-868) -/

/-- `badgerNodeDB.StartMultipartInsert`: zero versions are invalid; a restore
already active at the same version is an idempotent no-op; one active at a
different version is an error; otherwise the multipart version is persisted in
the metadata record and recorded in memory. -/
def startMultipartInsert (st : DBState) (version : Nat) :
    Except DBError Unit × DBState :=
  if version = 0 then (.error .invalidMultipartVersion, st)
  else if st.multipartVersion ≠ 0 then
    if st.multipartVersion ≠ version then (.error .multipartInProgress, st)
    else (.ok (), st)
  else
    (.ok (),
     { st with
       meta := { st.meta with multipartVersion := version }
       multipartVersion := version })

/-! ### Batch commit (lines 984-1115) -/

/-- The mutable state of a `badgerBatch`: the declared old root, chunk mode,
whether a multipart node-log batch was allocated, the stashed write log and
annotations (opaque), the accumulated updated-node entries, and the writes staged
in the main and multipart write batches. -/
structure BatchState where
  oldRoot : Root
  chunk : Bool
  hasMultipartNodes : Bool
  stashedWriteLog : Option Nat
  stashedAnnots : Option Nat
  updatedNodes : List UpdatedNode
  pendingNodes : List (Hash × Nat)
  pendingRootMarks : List TypedHash
  pendingMultipartLog : List TypedHash
  deriving DecidableEq

/-- `badgerBatch.Reset` (and the batch-state outcome of a successful flush): the
write batches hold no staged writes any more and all stashes are cleared. -/
def batchCleared (ba : BatchState) : BatchState :=
  { ba with
    stashedWriteLog := none, stashedAnnots := none, updatedNodes := [],
    pendingNodes := [], pendingRootMarks := [], pendingMultipartLog := [] }

/-- Application of a successful `Commit`'s flushes: staged node writes and root
markers land at the new root's version, the optional write-log key is stored, the
multipart log entries land, and the metadata transaction's roots-metadata and
updated-node writes are committed. -/
def applyFlush (st : DBState) (ba : BatchState) (root : Root)
    (rms : List (Nat × RootsMeta))
    (updNew : List ((Nat × TypedHash) × List UpdatedNode))
    (wlAdd : List WLKey) : DBState :=
  { st with
    nodes := st.nodes ++ ba.pendingNodes.map (fun p => ⟨p.1, root.version, p.2⟩)
    rootNodes := st.rootNodes ++ ba.pendingRootMarks.map (fun t => ⟨t, root.version⟩)
    writeLogs := st.writeLogs ++ wlAdd
    multipartLog := st.multipartLog ++ ba.pendingMultipartLog
    rootsMetas := rms
    rootUpdatedNodes := updNew }

/-- The part of `badgerBatch.Commit` after the multipart, namespace, follows and
already-finalized checks: register the root marker (staged in the write batch),
short-circuit to a reset when the root is already known and the batch is not in
chunk mode, otherwise insert the root, link the old root (normal mode), store the
updated-node record and the stashed write log, and flush. -/
def commitPost (st : DBState) (ba : BatchState) (root : Root) :
    Except DBError Unit × DBState × BatchState :=
  let rm := loadRootsMetadata st root.version
  let rootHash := TypedHash.fromRoot root
  let ba1 :=
    { ba with
      pendingRootMarks := ba.pendingRootMarks ++ [rootHash]
      pendingMultipartLog :=
        if ba.hasMultipartNodes then ba.pendingMultipartLog ++ [rootHash]
        else ba.pendingMultipartLog }
  if (lookupKey rm rootHash).isSome ∧ ¬ba.chunk then
    (.ok (), st, batchCleared ba1)
  else
    let rms1 :=
      if (lookupKey rm rootHash).isSome then st.rootsMetas
      else updateKey st.rootsMetas root.version (rm ++ [(rootHash, [])])
    if ba.chunk then
      let updNew := updateKey st.rootUpdatedNodes (root.version, rootHash) []
      (.ok (), applyFlush st ba1 root rms1 updNew [], batchCleared ba1)
    else
      let oldRootHash := TypedHash.fromRoot ba.oldRoot
      let linked : Except DBError (List (Nat × RootsMeta)) :=
        if ba.oldRoot.hash = emptyHash then .ok rms1
        else if ba.oldRoot.version < st.meta.earliestVersion ∧ ba.oldRoot.version ≠ root.version then
          .error .previousVersionMismatch
        else
          let oldRm := (lookupKey rms1 ba.oldRoot.version).getD []
          match lookupKey oldRm oldRootHash with
          | none => .error .rootNotFound
          | some ds =>
            .ok (updateKey rms1 ba.oldRoot.version (updateKey oldRm oldRootHash (ds ++ [rootHash])))
      match linked with
      | .error e => (.error e, st, ba1)
      | .ok rms2 =>
        let updNew := updateKey st.rootUpdatedNodes (root.version, rootHash) ba.updatedNodes
        let wlAdd : List WLKey :=
          if ba.stashedWriteLog.isSome ∧ ba.stashedAnnots.isSome then
            [⟨root.version, rootHash, oldRootHash⟩]
          else []
        (.ok (), applyFlush st ba1 root rms2 updNew wlAdd, batchCleared ba1)

/-- `badgerBatch.Commit`: the multipart-version check, the namespace check, the
follows check and the already-finalized check, followed by `commitPost`.  Error
returns leave the database unchanged (nothing is flushed), but keep the root
marker staged in the batch exactly as the source does. -/
def commit (st : DBState) (ba : BatchState) (root : Root) :
    Except DBError Unit × DBState × BatchState :=
  if st.multipartVersion ≠ 0 ∧ st.multipartVersion ≠ root.version then
    (.error .invalidMultipartVersion, st, ba)
  else if root.ns ≠ st.ns then (.error .badNamespace, st, ba)
  else if !Root.follows root ba.oldRoot then (.error .rootMustFollowOld, st, ba)
  else
    match st.meta.lastFinalizedVersion with
    | some l =>
      if root.version ≤ l then (.error .alreadyFinalized, st, ba)
      else commitPost st ba root
    | none => commitPost st ba root

/-! ### Concrete states used by counterexamples and witnesses -/

/-- A freshly initialized database in namespace `7`: nothing stored, nothing
finalized, no multipart restore. -/
def baseState : DBState :=
  { readOnly := false, discardWriteLogs := false, ns := 7, multipartVersion := 0
    meta := { earliestVersion := 0, lastFinalizedVersion := none, multipartVersion := 0 }
    nodes := [], rootNodes := [], writeLogs := [], rootUpdatedNodes := []
    rootsMetas := [], multipartLog := [] }

/-- The metadata state of scenario S5: versions 1, 2, 3 finalized and version 1
already pruned, so the earliest version is 2 and the last finalized version 3. -/
def stS5 : DBState :=
  { baseState with
    meta := { earliestVersion := 2, lastFinalizedVersion := some 3, multipartVersion := 0 } }

/-- A database whose versions below 5 have been pruned. -/
def stPruned : DBState :=
  { baseState with
    meta := { earliestVersion := 5, lastFinalizedVersion := some 6, multipartVersion := 0 } }

/-- An empty-hash state root at version 3 (below `stPruned`'s earliest version). -/
def rootEmpty3 : Root := ⟨7, 3, RootType.state, emptyHash⟩

/-- State-type fingerprints used by the finalize fixtures. -/
def thA : TypedHash := ⟨RootType.state, 10⟩

/-- Second fingerprint of the finalize fixtures. -/
def thB : TypedHash := ⟨RootType.state, 11⟩

/-- A version-1 database with two sibling roots `thA` (updated nodes `{1}`) and
`thB` (updated nodes `{1, 2}`), sharing node `1`. -/
def stFin : DBState :=
  { baseState with
    nodes := [⟨1, 1, 100⟩, ⟨2, 1, 101⟩]
    rootUpdatedNodes :=
      [((1, thA), [⟨false, 1⟩]), ((1, thB), [⟨false, 1⟩, ⟨false, 2⟩])]
    rootsMetas := [(1, [(thA, []), (thB, [])])] }

/-- The root of fingerprint `thA` at version 1. -/
def rootA : Root := ⟨7, 1, RootType.state, 10⟩

/-- Roots metadata with a single derived-root edge `thA → thB`. -/
def rmEdge : RootsMeta := [(thA, [thB])]

/-- A version-1 database holding a three-hop write-log chain
`start → 21 → 22 → end` for end root `thE`, whose root marker is present. -/
def stWL3 : DBState :=
  { baseState with
    rootNodes := [⟨⟨RootType.io, 23⟩, 1⟩]
    writeLogs :=
      [⟨1, ⟨RootType.state, 21⟩, ⟨RootType.state, emptyHash⟩⟩,
       ⟨1, ⟨RootType.state, 22⟩, ⟨RootType.state, 21⟩⟩,
       ⟨1, ⟨RootType.io, 23⟩, ⟨RootType.state, 22⟩⟩] }

/-- The empty-hash start root of the write-log fixtures. -/
def rootWLStart : Root := ⟨7, 1, RootType.state, emptyHash⟩

/-- The end root of the three-hop write-log fixture. -/
def rootWLEnd : Root := ⟨7, 1, RootType.io, 23⟩

/-- An end root at version 1 whose `rootNode` marker is absent in `baseState`. -/
def rootWLNoMark : Root := ⟨7, 1, RootType.io, 30⟩

/-- A database with an active multipart restore at version 4. -/
def stMp : DBState :=
  { baseState with
    multipartVersion := 4
    meta := { baseState.meta with multipartVersion := 4 } }

/-- A version-1 database that already knows the root with fingerprint
`(state, 5)`. -/
def stCommit : DBState :=
  { baseState with rootsMetas := [(1, [(⟨RootType.state, 5⟩, [])])] }

/-- A non-chunk batch against the empty old root carrying one staged node write,
a stashed write log and one updated-node entry. -/
def baCommit : BatchState :=
  { oldRoot := ⟨7, 1, RootType.state, emptyHash⟩, chunk := false
    hasMultipartNodes := false, stashedWriteLog := some 1, stashedAnnots := some 1
    updatedNodes := [⟨false, 5⟩], pendingNodes := [(5, 99)]
    pendingRootMarks := [], pendingMultipartLog := [] }

/-- The root with fingerprint `(state, 5)` at version 1, already present in
`stCommit`'s roots metadata. -/
def rootCommit : Root := ⟨7, 1, RootType.state, 5⟩

/-- A database holding one node record (hash 5, value 99, written at version 1)
and the root marker of `rootCommit`. -/
def stGet : DBState :=
  { baseState with
    nodes := [⟨5, 1, 99⟩]
    rootNodes := [⟨⟨RootType.state, 5⟩, 1⟩]
    rootsMetas := [(1, [(⟨RootType.state, 5⟩, [])])] }



/-- The effects of finalizing `rootA` in `stFin`: node 1 is shared with the
finalized root, node 2 is exclusive to the unfinalized sibling `thB`. -/
def effFin : FinalizeEffects := ⟨{1, 2}, {1}, {2}⟩

/-- The database state after finalizing `rootA` in `stFin`. -/
def stFinAfter : DBState :=
  { baseState with
    nodes := [⟨1, 1, 100⟩]
    rootsMetas := [(1, [(thA, [])])]
    meta := { earliestVersion := 1, lastFinalizedVersion := some 1, multipartVersion := 0 } }

/-! ## Theorems -/

/-! ### Helper lemmas on association lists and folds -/

theorem lookupKey_isSome_of_mem {α β : Type} [DecidableEq α] {l : List (α × β)} {k : α}
    {v : β} (h : (k, v) ∈ l) : (lookupKey l k).isSome = true := by
  induction l with
  | nil => cases h
  | cons p t ih =>
    rename_i h
    rcases List.mem_cons.mp h with h1 | h1
    · simp [lookupKey, ← h1]
    · by_cases hk : p.1 = k <;> simp [lookupKey, hk, ih h1]

/-- C10: Finalize with an empty list of roots fails on every engine state —
with `ReadOnly` on a read-only engine and with the "need at least one root"
error otherwise — and leaves the state completely unchanged; no default version
is ever selected. -/
theorem finalize_empty_roots_always_errors (st : DBState) :
    finalize st [] =
      (.error (if st.readOnly then DBError.readOnly else DBError.needRoots), st) := by
  cases h : st.readOnly <;> simp [finalize, h]

/-- C4 counterexample: in the S5 state (earliest version 2, last finalized
version 3), `Prune(3)` does not return `CannotPruneLatestVersion` as the claim
asserts — the earliest-version check fires first. -/
theorem prune_s5_counterexample :
    pruneCheck stS5 3 ≠ PruneResult.cannotPruneLatestVersion := by decide

/-- C4 (amended): in the S5 state, `Prune(1)` returns `NotEarliest` and
`Prune(3)` also returns `NotEarliest`, because the `version ≠ earliest_version`
check precedes the `version = last_finalized_version` check. -/
theorem prune_s5_errors :
    pruneCheck stS5 1 = PruneResult.notEarliest ∧
      pruneCheck stS5 3 = PruneResult.notEarliest := by decide

/-- C9: `StartMultipartInsert(v)` rejects `v = 0` with
`InvalidMultipartVersion`; is an idempotent no-op (same result, unchanged state)
when a restore is already active at the same version; fails with
`MultipartInProgress` when one is active at a different version; and otherwise
persists the multipart version in the metadata record and records it in memory. -/
theorem startMultipartInsert_spec (st : DBState) (v : Nat) :
    (v = 0 → startMultipartInsert st v = (.error .invalidMultipartVersion, st)) ∧
    (v ≠ 0 → st.multipartVersion = v → startMultipartInsert st v = (.ok (), st)) ∧
    (v ≠ 0 → st.multipartVersion ≠ 0 → st.multipartVersion ≠ v →
      startMultipartInsert st v = (.error .multipartInProgress, st)) ∧
    (v ≠ 0 → st.multipartVersion = 0 →
      startMultipartInsert st v =
        (.ok (),
         { st with
           meta := { st.meta with multipartVersion := v }
           multipartVersion := v })) := by
  refine ⟨fun h => by simp [startMultipartInsert, h], fun h hv => ?_, fun h h0 hv => ?_,
    fun h h0 => ?_⟩
  · have h0 : st.multipartVersion ≠ 0 := by rw [hv]; exact h
    simp [startMultipartInsert, h, h0, hv]
  · simp [startMultipartInsert, h, h0, hv]
  · simp [startMultipartInsert, h, h0]

/-- C9 witness: starting a multipart restore at version 4 while one is already
active at version 4 succeeds and changes nothing. -/
theorem startMultipartInsert_spec_witness :
    startMultipartInsert stMp 4 = (.ok (), stMp) :=
  (startMultipartInsert_spec stMp 4).2.1 (by decide) (by decide)

/-- C7: for a clean non-nil pointer, `GetNode` returns `BadNamespace` when the
root's namespace differs from the engine's; otherwise `NodeNotFound` when the
root's version lies below the earliest version; otherwise `RootNotFound` when
the root's `rootNode` marker is not visible at the root's version timestamp;
otherwise `NodeNotFound` when no node record for the pointer's hash is visible;
and otherwise the stored node value. -/
theorem getNode_spec (st : DBState) (root : Root) (ptrHash : Hash) :
    (root.ns ≠ st.ns → getNode st root ptrHash = .badNamespace) ∧
    (root.ns = st.ns → root.version < st.meta.earliestVersion →
      getNode st root ptrHash = .nodeNotFound) ∧
    (root.ns = st.ns → ¬root.version < st.meta.earliestVersion →
      rootMarkVisible st root = false → getNode st root ptrHash = .rootNotFound) ∧
    (root.ns = st.ns → ¬root.version < st.meta.earliestVersion →
      rootMarkVisible st root = true → nodeLookup st root.version ptrHash = none →
      getNode st root ptrHash = .nodeNotFound) ∧
    (∀ v, root.ns = st.ns → ¬root.version < st.meta.earliestVersion →
      rootMarkVisible st root = true → nodeLookup st root.version ptrHash = some v →
      getNode st root ptrHash = .ok v) := by
  refine ⟨fun h => by simp [getNode, h], fun h1 h2 => by simp [getNode, h1, h2],
    fun h1 h2 h3 => by simp [getNode, h1, h2, h3],
    fun h1 h2 h3 h4 => by simp [getNode, h1, h2, h3, h4],
    fun v h1 h2 h3 h4 => by simp [getNode, h1, h2, h3, h4]⟩

/-- C7 witness: in `stGet`, reading node 5 through `rootCommit` returns the
stored value 99. -/
theorem getNode_spec_witness : getNode stGet rootCommit 5 = .ok 99 :=
  (getNode_spec stGet rootCommit 5).2.2.2.2 99 (by decide) (by decide) (by decide)
    (by decide)

/-- C3 counterexample: on a fresh database nothing has been finalized, so
version 1 (= V−1 for V = 2) is not finalized and no multipart restore is
active; yet `Finalize` of an empty-hash root at version 2 succeeds instead of
returning `NotFinalized` as the claim demands. -/
theorem finalize_fresh_counterexample :
    baseState.meta.lastFinalizedVersion = none ∧ baseState.multipartVersion = 0 ∧
      baseState.readOnly = false ∧
      (finalize baseState [⟨7, 2, RootType.state, 0⟩]).1 ≠ .error .notFinalized ∧
      (finalize baseState [⟨7, 2, RootType.state, 0⟩]).1 = .ok ⟨∅, ∅, ∅⟩ := by decide

/-- C8 counterexample: the empty-hash root at version 3 lies below `stPruned`'s
earliest version 5 and is in the engine's namespace, yet `HasRoot` returns
`true` (the empty root is implicitly present at every version), contradicting
the claim that every root below the earliest version reports absence. -/
theorem hasRoot_empty_root_counterexample :
    rootEmpty3.ns = stPruned.ns ∧ rootEmpty3.version < stPruned.meta.earliestVersion ∧
      hasRoot stPruned rootEmpty3 = true := by decide

/-- C5 counterexample: in `baseState` there is no chain of stored write logs at
all between `rootWLStart` and `rootWLNoMark` (and write logs are kept, and the
end root's version is not below the earliest), so the claim demands
`WriteLogNotFound`; the code returns `RootNotFound` instead, because the end
root's marker is absent. -/
theorem getWriteLog_counterexample :
    Root.follows rootWLNoMark rootWLStart = true ∧
      rootWLStart.ns = baseState.ns ∧
      baseState.discardWriteLogs = false ∧
      ¬rootWLNoMark.version < baseState.meta.earliestVersion ∧
      wlChainLe2 baseState.writeLogs rootWLNoMark.version
        (TypedHash.fromRoot rootWLStart) (TypedHash.fromRoot rootWLNoMark) = false ∧
      getWriteLog baseState rootWLStart rootWLNoMark = .rootNotFound := by decide

/-- C6: committing a non-chunk batch whose new root is already present in the
roots metadata of its version — with the preliminary checks of the commit
protocol passing (multipart version compatible, namespace matching, the new
root following the batch's old root, the version not yet finalized) — succeeds,
leaves the entire database state unchanged, and resets the batch, discarding
the stashed write log, the staged node writes and the updated-node entries. -/
theorem commit_existing_root_noop (st : DBState) (ba : BatchState) (root : Root)
    (hchunk : ba.chunk = false)
    (hpresent :
      (lookupKey (loadRootsMetadata st root.version) (TypedHash.fromRoot root)).isSome = true)
    (hmp : st.multipartVersion = 0 ∨ st.multipartVersion = root.version)
    (hns : root.ns = st.ns)
    (hfol : Root.follows root ba.oldRoot = true)
    (hfin : ∀ l, st.meta.lastFinalizedVersion = some l → l < root.version) :
    commit st ba root = (.ok (), st, batchCleared ba) := by
  have hmp2 : ¬(st.multipartVersion ≠ 0 ∧ st.multipartVersion ≠ root.version) := by
    rcases hmp with h | h <;> simp [h]
  cases hl : st.meta.lastFinalizedVersion with
  | none => simp [commit, commitPost, hmp2, hns, hfol, hchunk, hpresent, hl, batchCleared]
  | some l =>
    have hlt := hfin l hl
    simp [commit, commitPost, hmp2, hns, hfol, hchunk, hpresent, hl, Nat.not_le.mpr hlt,
      batchCleared]

/-- C6 witness: committing `rootCommit` (already present in `stCommit`'s roots
metadata) on a non-chunk batch with staged writes succeeds, leaves the database
unchanged and resets the batch. -/
theorem commit_existing_root_noop_witness :
    commit stCommit baCommit rootCommit = (.ok (), stCommit, batchCleared baCommit) :=
  commit_existing_root_noop stCommit baCommit rootCommit rfl (by decide) (Or.inl rfl)
    rfl (by decide) (fun l h => by simp [stCommit, baseState] at h)

/-! ### Closure lemmas (C2) -/

theorem closureStep_subset (s : Finset TypedHash) (p : TypedHash × List TypedHash) :
    s ⊆ closureStep s p := by
  unfold closureStep
  split
  · exact Finset.subset_insert _ _
  · exact Finset.Subset.refl s

theorem foldl_closureStep_subset (l : RootsMeta) (s : Finset TypedHash) :
    s ⊆ l.foldl closureStep s := by
  induction l generalizing s with
  | nil => exact Finset.Subset.refl s
  | cons p t ih => exact (closureStep_subset s p).trans (ih _)

theorem foldl_closureStep_mem_keys (l : RootsMeta) (s : Finset TypedHash) (x : TypedHash)
    (hx : x ∈ l.foldl closureStep s) : x ∈ s ∨ x ∈ l.map Prod.fst := by
  induction l generalizing s with
  | nil => exact Or.inl (by simpa using hx)
  | cons p t ih =>
    rcases ih _ hx with h | h
    · unfold closureStep at h
      split at h
      · rcases Finset.mem_insert.mp h with h1 | h1
        · exact Or.inr (by simp [h1])
        · exact Or.inl h1
      · exact Or.inl h
    · exact Or.inr (List.mem_cons_of_mem _ h)

theorem foldl_closureStep_trigger (l : RootsMeta) (s : Finset TypedHash)
    (p : TypedHash × List TypedHash) (hp : p ∈ l) (d : TypedHash) (hd : d ∈ p.2)
    (hds : d ∈ s) : p.1 ∈ l.foldl closureStep s := by
  induction l generalizing s with
  | nil => cases hp
  | cons q t ih =>
    rcases List.mem_cons.mp hp with h | h
    · subst h
      refine foldl_closureStep_subset t (closureStep s p) ?_
      unfold closureStep
      split
      · exact Finset.mem_insert_self _ _
      · rename_i hcond
        by_cases hps : p.1 ∈ s
        · exact hps
        · exact absurd ⟨hps, List.any_eq_true.mpr ⟨d, hd, by simpa using hds⟩⟩ hcond
    · exact ih _ h (closureStep_subset s q hds)

theorem closurePass_eq_closed {rm : RootsMeta} {s : Finset TypedHash}
    (h : closurePass rm s = s) :
    ∀ p ∈ rm, ∀ d ∈ p.2, d ∈ s → p.1 ∈ s := by
  intro p hp d hd hds
  have := foldl_closureStep_trigger rm s p hp d hd hds
  rwa [show rm.foldl closureStep s = s from h] at this

theorem closureIter_subset (n : Nat) (rm : RootsMeta) (s : Finset TypedHash) :
    s ⊆ closureIter n rm s := by
  induction n generalizing s with
  | zero => exact Finset.Subset.refl s
  | succ n ih =>
    simp only [closureIter]
    split
    · exact Finset.Subset.refl s
    · exact (foldl_closureStep_subset rm s).trans (ih _)

theorem closureIter_fixed (rm : RootsMeta) :
    ∀ (n : Nat) (s : Finset TypedHash),
      ((rm.map Prod.fst).toFinset \ s).card < n →
      closurePass rm (closureIter n rm s) = closureIter n rm s := by
  intro n
  induction n with
  | zero => exact fun s h => absurd h (Nat.not_lt_zero _)
  | succ n ih =>
    intro s hcard
    simp only [closureIter]
    by_cases heq : closurePass rm s = s
    · simp [heq]
    · rw [if_neg heq]
      apply ih
      have hsub : s ⊆ closurePass rm s := foldl_closureStep_subset rm s
      have hne : ∃ x, x ∈ closurePass rm s ∧ x ∉ s := by
        by_contra hno
        push_neg at hno
        exact heq (Finset.Subset.antisymm (fun x hx => hno x hx) hsub)
      obtain ⟨x, hx1, hx2⟩ := hne
      have hxkeys : x ∈ (rm.map Prod.fst).toFinset := by
        rcases foldl_closureStep_mem_keys rm s x hx1 with h | h
        · exact absurd h hx2
        · exact List.mem_toFinset.mpr h
      have hss : ((rm.map Prod.fst).toFinset \ closurePass rm s) ⊂
          ((rm.map Prod.fst).toFinset \ s) := by
        refine (Finset.ssubset_iff_of_subset
          (Finset.sdiff_subset_sdiff (Finset.Subset.refl _) hsub)).mpr ?_
        exact ⟨x, Finset.mem_sdiff.mpr ⟨hxkeys, hx2⟩,
          fun hmem => (Finset.mem_sdiff.mp hmem).2 hx1⟩
      have := Finset.card_lt_card hss
      omega

theorem finalizedSet_fixed (rm : RootsMeta) (seeds : Finset TypedHash) :
    closurePass rm (finalizedSet rm seeds) = finalizedSet rm seeds := by
  apply closureIter_fixed
  have h1 : ((rm.map Prod.fst).toFinset \ seeds).card ≤ (rm.map Prod.fst).toFinset.card :=
    Finset.card_le_card Finset.sdiff_subset
  have h2 : (rm.map Prod.fst).toFinset.card ≤ (rm.map Prod.fst).length :=
    List.toFinset_card_le _
  have h3 : (rm.map Prod.fst).length = rm.length := List.length_map _ _
  omega

theorem closureStep_reaches {rm : RootsMeta} {seeds : Finset TypedHash}
    {s : Finset TypedHash} (hs : ∀ x ∈ s, Reaches rm seeds x)
    {p : TypedHash × List TypedHash} (hp : p ∈ rm) :
    ∀ x ∈ closureStep s p, Reaches rm seeds x := by
  intro x hx
  unfold closureStep at hx
  split at hx
  · rename_i hcond
    rcases Finset.mem_insert.mp hx with h | h
    · obtain ⟨d, hd, hds⟩ := List.any_eq_true.mp hcond.2
      subst h
      exact Reaches.step (show (p.1, p.2) ∈ rm by simpa using hp) hd
        (hs d (of_decide_eq_true hds))
    · exact hs x h
  · exact hs x hx

theorem foldl_closureStep_reaches {rm : RootsMeta} {seeds : Finset TypedHash} :
    ∀ (l : RootsMeta), (∀ p ∈ l, p ∈ rm) →
      ∀ {s : Finset TypedHash}, (∀ x ∈ s, Reaches rm seeds x) →
      ∀ x ∈ l.foldl closureStep s, Reaches rm seeds x := by
  intro l
  induction l with
  | nil =>
    intro _ s hs x hx
    exact hs x (by simpa using hx)
  | cons p t ih =>
    intro hl s hs x hx
    exact ih (fun q hq => hl q (List.mem_cons_of_mem p hq))
      (closureStep_reaches hs (hl p (List.mem_cons_self p t))) x hx

theorem closureIter_reaches {rm : RootsMeta} {seeds : Finset TypedHash} :
    ∀ (n : Nat) {s : Finset TypedHash}, (∀ x ∈ s, Reaches rm seeds x) →
      ∀ x ∈ closureIter n rm s, Reaches rm seeds x := by
  intro n
  induction n with
  | zero =>
    intro s hs x hx
    exact hs x hx
  | succ n ih =>
    intro s hs x hx
    simp only [closureIter] at hx
    split at hx
    · exact hs x hx
    · exact ih (foldl_closureStep_reaches rm (fun p hp => hp) hs) x hx

theorem reaches_mem_finalizedSet {rm : RootsMeta} {seeds : Finset TypedHash}
    {r : TypedHash} (h : Reaches rm seeds r) : r ∈ finalizedSet rm seeds := by
  induction h with
  | seed hx => exact closureIter_subset _ rm seeds hx
  | step hpm hd _ ih =>
    exact closurePass_eq_closed (finalizedSet_fixed rm seeds) _ hpm _ hd ih

/-- C2: the finalized-root set computed by `Finalize` is a fixed point of the
closure pass; it is closed upward along every derived-root edge of the version's
roots metadata (if a derived root is finalized, so is its parent); and a
fingerprint belongs to it exactly when it is one of the input roots or some
input root is reachable from it through derived-root edges. -/
theorem finalize_closure_spec (rm : RootsMeta) (seeds : Finset TypedHash) :
    closurePass rm (finalizedSet rm seeds) = finalizedSet rm seeds ∧
      (∀ p ∈ rm, ∀ d ∈ p.2, d ∈ finalizedSet rm seeds → p.1 ∈ finalizedSet rm seeds) ∧
      (∀ r, r ∈ finalizedSet rm seeds ↔ Reaches rm seeds r) := by
  refine ⟨finalizedSet_fixed rm seeds,
    closurePass_eq_closed (finalizedSet_fixed rm seeds),
    fun r => ⟨fun h => ?_, reaches_mem_finalizedSet⟩⟩
  exact closureIter_reaches _ (fun x hx => Reaches.seed hx) r h

/-- C2 witness: over the single edge `thA → thB` with seed `thB`, the theorem
yields `thA ∈ finalizedSet` from the one-step reachability derivation. -/
theorem finalize_closure_spec_witness : thA ∈ finalizedSet rmEdge {thB} :=
  ((finalize_closure_spec rmEdge {thB}).2.2 thA).mpr
    (Reaches.step (by simp [rmEdge]) (List.mem_singleton_self thB)
      (Reaches.seed (Finset.mem_singleton_self thB)))

/-! ### Scan and collection lemmas (C1) -/

theorem scanStep_fst_mem (s : Finset TypedHash) (acc : Finset Hash × Finset Hash)
    (p : TypedHash × List UpdatedNode) (h : Hash) :
    h ∈ (scanStep s acc p).1 ↔
      h ∈ acc.1 ∨ (p.1 ∈ s ∧ ∃ u ∈ p.2, u.removed = true ∧ u.hash = h) ∨
        (p.1 ∉ s ∧ ∃ u ∈ p.2, u.removed = false ∧ u.hash = h) := by
  unfold scanStep
  by_cases hmem : p.1 ∈ s <;>
    simp [hmem, Finset.mem_union, List.mem_toFinset, List.mem_map, List.mem_filter,
      Bool.not_eq_true', and_assoc]

theorem scanStep_snd_mem (s : Finset TypedHash) (acc : Finset Hash × Finset Hash)
    (p : TypedHash × List UpdatedNode) (h : Hash) :
    h ∈ (scanStep s acc p).2 ↔
      h ∈ acc.2 ∨ (p.1 ∈ s ∧ ∃ u ∈ p.2, u.removed = false ∧ u.hash = h) := by
  unfold scanStep
  by_cases hmem : p.1 ∈ s <;>
    simp [hmem, Finset.mem_union, List.mem_toFinset, List.mem_map, List.mem_filter,
      Bool.not_eq_true', and_assoc]

theorem foldl_scanStep_fst (s : Finset TypedHash) :
    ∀ (entries : List (TypedHash × List UpdatedNode)) (acc : Finset Hash × Finset Hash)
      (h : Hash),
      h ∈ (entries.foldl (scanStep s) acc).1 ↔
        h ∈ acc.1 ∨ (∃ p ∈ entries, p.1 ∈ s ∧ ∃ u ∈ p.2, u.removed = true ∧ u.hash = h) ∨
          (∃ p ∈ entries, p.1 ∉ s ∧ ∃ u ∈ p.2, u.removed = false ∧ u.hash = h) := by
  intro entries
  induction entries with
  | nil => intro acc h; simp
  | cons p t ih =>
    intro acc h
    rw [List.foldl_cons, ih, scanStep_fst_mem]
    simp only [List.mem_cons]
    constructor
    · rintro ((ha | hb | hc) | hd | he)
      · exact Or.inl ha
      · exact Or.inr (Or.inl ⟨p, Or.inl rfl, hb⟩)
      · exact Or.inr (Or.inr ⟨p, Or.inl rfl, hc⟩)
      · obtain ⟨q, hq, hrest⟩ := hd
        exact Or.inr (Or.inl ⟨q, Or.inr hq, hrest⟩)
      · obtain ⟨q, hq, hrest⟩ := he
        exact Or.inr (Or.inr ⟨q, Or.inr hq, hrest⟩)
    · rintro (ha | ⟨q, hq | hq, hrest⟩ | ⟨q, hq | hq, hrest⟩)
      · exact Or.inl (Or.inl ha)
      · exact Or.inl (Or.inr (Or.inl (hq ▸ hrest)))
      · exact Or.inr (Or.inl ⟨q, hq, hrest⟩)
      · exact Or.inl (Or.inr (Or.inr (hq ▸ hrest)))
      · exact Or.inr (Or.inr ⟨q, hq, hrest⟩)

theorem foldl_scanStep_snd (s : Finset TypedHash) :
    ∀ (entries : List (TypedHash × List UpdatedNode)) (acc : Finset Hash × Finset Hash)
      (h : Hash),
      h ∈ (entries.foldl (scanStep s) acc).2 ↔
        h ∈ acc.2 ∨ ∃ p ∈ entries, p.1 ∈ s ∧ ∃ u ∈ p.2, u.removed = false ∧ u.hash = h := by
  intro entries
  induction entries with
  | nil => intro acc h; simp
  | cons p t ih =>
    intro acc h
    rw [List.foldl_cons, ih, scanStep_snd_mem]
    simp only [List.mem_cons]
    constructor
    · rintro ((ha | hb) | hd)
      · exact Or.inl ha
      · exact Or.inr ⟨p, Or.inl rfl, hb⟩
      · obtain ⟨q, hq, hrest⟩ := hd
        exact Or.inr ⟨q, Or.inr hq, hrest⟩
    · rintro (ha | ⟨q, hq | hq, hrest⟩)
      · exact Or.inl (Or.inl ha)
      · exact Or.inl (Or.inr (hq ▸ hrest))
      · exact Or.inr ⟨q, hq, hrest⟩

theorem collectUpdated_mem {st : DBState} {version : Nat} :
    ∀ {rm : RootsMeta} {entries : List (TypedHash × List UpdatedNode)},
      collectUpdated st version rm = some entries →
      ∀ th us, ((th, us) ∈ entries ↔
        ∃ ds, (th, ds) ∈ rm ∧ lookupKey st.rootUpdatedNodes (version, th) = some us) := by
  intro rm
  induction rm with
  | nil =>
    intro entries h th us
    simp only [collectUpdated, Option.some.injEq] at h
    subst h
    simp
  | cons p t ih =>
    intro entries h th us
    simp only [collectUpdated] at h
    cases hl : lookupKey st.rootUpdatedNodes (version, p.1) <;> rw [hl] at h
    · simp at h
    · cases hc : collectUpdated st version t <;> rw [hc] at h
      · simp at h
      · rename_i us1 rest
        simp only [Option.some.injEq] at h
        subst h
        constructor
        · intro hmem
          rcases List.mem_cons.mp hmem with h1 | h1
          · obtain ⟨hth, hus⟩ := Prod.mk.injEq .. ▸ h1
            refine ⟨p.2, ?_, ?_⟩
            · rw [hth]; exact List.mem_cons_self _ _
            · rw [hth, hus]; exact hl
          · obtain ⟨ds, hds, hlook⟩ := (ih hc th us).mp h1
            exact ⟨ds, List.mem_cons_of_mem p hds, hlook⟩
        · rintro ⟨ds, hds, hlook⟩
          rcases List.mem_cons.mp hds with h1 | h1
          · have hth : th = p.1 := congrArg Prod.fst h1
            have : us = us1 := by
              rw [hth] at hlook
              exact Option.some.inj (hlook.symm.trans hl)
            rw [hth, this]
            exact List.mem_cons_self _ _
          · exact List.mem_cons_of_mem _ ((ih hc th us).mpr ⟨ds, h1, hlook⟩)

theorem finalizeScan_fst_mem {st : DBState} {version : Nat} {rm : RootsMeta}
    {entries : List (TypedHash × List UpdatedNode)}
    (hc : collectUpdated st version rm = some entries) (s : Finset TypedHash) (h : Hash) :
    h ∈ (finalizeScan s entries).1 ↔
      (∃ p ∈ rm, p.1 ∈ s ∧ ∃ us, lookupKey st.rootUpdatedNodes (version, p.1) = some us ∧
        ∃ u ∈ us, u.removed = true ∧ u.hash = h) ∨
      (∃ p ∈ rm, p.1 ∉ s ∧ ∃ us, lookupKey st.rootUpdatedNodes (version, p.1) = some us ∧
        ∃ u ∈ us, u.removed = false ∧ u.hash = h) := by
  unfold finalizeScan
  rw [foldl_scanStep_fst]
  simp only [Finset.not_mem_empty, false_or]
  constructor
  · rintro (⟨pe, hpe, hmem, hu⟩ | ⟨pe, hpe, hmem, hu⟩)
    · obtain ⟨ds, hds, hlook⟩ :=
        (collectUpdated_mem hc pe.1 pe.2).mp (by simpa using hpe)
      exact Or.inl ⟨(pe.1, ds), hds, hmem, pe.2, hlook, hu⟩
    · obtain ⟨ds, hds, hlook⟩ :=
        (collectUpdated_mem hc pe.1 pe.2).mp (by simpa using hpe)
      exact Or.inr ⟨(pe.1, ds), hds, hmem, pe.2, hlook, hu⟩
  · rintro (⟨p, hp, hmem, us, hlook, hu⟩ | ⟨p, hp, hmem, us, hlook, hu⟩)
    · have hent : (p.1, us) ∈ entries :=
        (collectUpdated_mem hc p.1 us).mpr ⟨p.2, by simpa using hp, hlook⟩
      exact Or.inl ⟨(p.1, us), hent, hmem, hu⟩
    · have hent : (p.1, us) ∈ entries :=
        (collectUpdated_mem hc p.1 us).mpr ⟨p.2, by simpa using hp, hlook⟩
      exact Or.inr ⟨(p.1, us), hent, hmem, hu⟩

theorem finalizeScan_snd_mem {st : DBState} {version : Nat} {rm : RootsMeta}
    {entries : List (TypedHash × List UpdatedNode)}
    (hc : collectUpdated st version rm = some entries) (s : Finset TypedHash) (h : Hash) :
    h ∈ (finalizeScan s entries).2 ↔
      ∃ p ∈ rm, p.1 ∈ s ∧ ∃ us, lookupKey st.rootUpdatedNodes (version, p.1) = some us ∧
        ∃ u ∈ us, u.removed = false ∧ u.hash = h := by
  unfold finalizeScan
  rw [foldl_scanStep_snd]
  simp only [Finset.not_mem_empty, false_or]
  constructor
  · rintro ⟨pe, hpe, hmem, hu⟩
    obtain ⟨ds, hds, hlook⟩ :=
      (collectUpdated_mem hc pe.1 pe.2).mp (by simpa using hpe)
    exact ⟨(pe.1, ds), hds, hmem, pe.2, hlook, hu⟩
  · rintro ⟨p, hp, hmem, us, hlook, hu⟩
    have hent : (p.1, us) ∈ entries :=
      (collectUpdated_mem hc p.1 us).mpr ⟨p.2, by simpa using hp, hlook⟩
    exact ⟨(p.1, us), hent, hmem, hu⟩

theorem finalizeApply_fst (st : DBState) (version : Nat) (s : Finset TypedHash)
    (rm : RootsMeta) (entries : List (TypedHash × List UpdatedNode)) :
    (finalizeApply st version s rm entries).1 =
      .ok { maybeLone := (finalizeScan s entries).1, notLone := (finalizeScan s entries).2,
            deletedNodes := (finalizeScan s entries).1 \ (finalizeScan s entries).2 } := rfl

theorem finalizeApply_nodes (st : DBState) (version : Nat) (s : Finset TypedHash)
    (rm : RootsMeta) (entries : List (TypedHash × List UpdatedNode)) :
    (finalizeApply st version s rm entries).2.nodes =
      st.nodes.filter
        (fun rec => decide (rec.hash ∉ (finalizeScan s entries).1 \ (finalizeScan s entries).2)) := by
  unfold finalizeApply
  by_cases hm : st.multipartVersion ≠ 0 <;> simp [hm]

theorem finalizeBody_ok_elim {st : DBState} {version : Nat} {seeds : Finset TypedHash}
    {eff : FinalizeEffects} {stF : DBState}
    (h : finalizeBody st version seeds = (.ok eff, stF)) :
    ∃ entries, collectUpdated st version (loadRootsMetadata st version) = some entries ∧
      finalizeApply st version (finalizedSet (loadRootsMetadata st version) seeds)
        (loadRootsMetadata st version) entries = (.ok eff, stF) := by
  simp only [finalizeBody] at h
  split at h
  · simp at h
  · split at h
    · simp at h
    · rename_i entries heq
      exact ⟨entries, heq, h⟩

theorem finalizeBody_no_version_error (st : DBState) (version : Nat)
    (seeds : Finset TypedHash) :
    (finalizeBody st version seeds).1 ≠ .error .alreadyFinalized ∧
      (finalizeBody st version seeds).1 ≠ .error .notFinalized := by
  simp only [finalizeBody]
  split
  · exact ⟨by simp, by simp⟩
  · split
    · exact ⟨by simp, by simp⟩
    · rw [finalizeApply_fst]
      exact ⟨by simp, by simp⟩

theorem finalize_ok_elim {st : DBState} {r : Root} {rs : List Root}
    {eff : FinalizeEffects} {stF : DBState}
    (h : finalize st (r :: rs) = (.ok eff, stF)) :
    finalizeBody st r.version (((r :: rs).map TypedHash.fromRoot).toFinset) =
      (.ok eff, stF) := by
  simp only [finalize] at h
  split at h
  · simp at h
  · split at h
    · simp at h
    · split at h
      · simp at h
      · split at h
        · simp at h
        · exact h

/-- C1: when `Finalize` succeeds on roots of version V, the node deletions it
issues are exactly the hashes in `maybeLone \ notLone`, where `notLone` holds
precisely the non-removed hashes recorded by finalized roots of V's roots
metadata and `maybeLone` precisely the removed hashes of finalized roots
together with the non-removed hashes of unfinalized roots (finalized = in the
transitive closure of the input fingerprints); consequently a node record
survives in the store iff its hash was not deleted. -/
theorem finalize_deletes_exactly_lone (st : DBState) (r : Root) (rs : List Root)
    (eff : FinalizeEffects) (stF : DBState)
    (hok : finalize st (r :: rs) = (.ok eff, stF)) :
    (∀ h, h ∈ eff.deletedNodes ↔ h ∈ eff.maybeLone ∧ h ∉ eff.notLone) ∧
    (∀ h, h ∈ eff.notLone ↔
      ∃ p ∈ loadRootsMetadata st r.version,
        p.1 ∈ finalizedSet (loadRootsMetadata st r.version)
          (((r :: rs).map TypedHash.fromRoot).toFinset) ∧
        ∃ us, lookupKey st.rootUpdatedNodes (r.version, p.1) = some us ∧
          ∃ u ∈ us, u.removed = false ∧ u.hash = h) ∧
    (∀ h, h ∈ eff.maybeLone ↔
      (∃ p ∈ loadRootsMetadata st r.version,
        p.1 ∈ finalizedSet (loadRootsMetadata st r.version)
          (((r :: rs).map TypedHash.fromRoot).toFinset) ∧
        ∃ us, lookupKey st.rootUpdatedNodes (r.version, p.1) = some us ∧
          ∃ u ∈ us, u.removed = true ∧ u.hash = h) ∨
      (∃ p ∈ loadRootsMetadata st r.version,
        p.1 ∉ finalizedSet (loadRootsMetadata st r.version)
          (((r :: rs).map TypedHash.fromRoot).toFinset) ∧
        ∃ us, lookupKey st.rootUpdatedNodes (r.version, p.1) = some us ∧
          ∃ u ∈ us, u.removed = false ∧ u.hash = h)) ∧
    stF.nodes = st.nodes.filter (fun rec => decide (rec.hash ∉ eff.deletedNodes)) := by
  obtain ⟨entries, hc, happ⟩ := finalizeBody_ok_elim (finalize_ok_elim hok)
  have hfst := congrArg Prod.fst happ
  rw [finalizeApply_fst] at hfst
  have heff := (Except.ok.inj hfst).symm
  have hmb : eff.maybeLone =
      (finalizeScan (finalizedSet (loadRootsMetadata st r.version)
        (((r :: rs).map TypedHash.fromRoot).toFinset)) entries).1 := by rw [heff]
  have hnl : eff.notLone =
      (finalizeScan (finalizedSet (loadRootsMetadata st r.version)
        (((r :: rs).map TypedHash.fromRoot).toFinset)) entries).2 := by rw [heff]
  have hdel : eff.deletedNodes = eff.maybeLone \ eff.notLone := by rw [heff]
  refine ⟨fun h => by rw [hdel]; exact Finset.mem_sdiff,
    fun h => by rw [hnl]; exact finalizeScan_snd_mem hc _ h,
    fun h => by rw [hmb]; exact finalizeScan_fst_mem hc _ h, ?_⟩
  have hsnd := congrArg Prod.snd happ
  have : stF.nodes = (finalizeApply st r.version
      (finalizedSet (loadRootsMetadata st r.version)
        (((r :: rs).map TypedHash.fromRoot).toFinset))
      (loadRootsMetadata st r.version) entries).2.nodes := by rw [hsnd]
  rw [this, finalizeApply_nodes, hdel, hmb, hnl]

/-- C1 witness: finalizing `rootA` in `stFin` deletes exactly node 2 (exclusive
to the unfinalized sibling) and keeps node 1 (shared with the finalized root). -/
theorem finalize_deletes_exactly_lone_witness :
    (2 ∈ effFin.deletedNodes ↔ 2 ∈ effFin.maybeLone ∧ 2 ∉ effFin.notLone) ∧
      stFinAfter.nodes =
        stFin.nodes.filter (fun rec => decide (rec.hash ∉ effFin.deletedNodes)) :=
  ⟨(finalize_deletes_exactly_lone stFin rootA [] effFin stFinAfter (by decide)).1 2,
   (finalize_deletes_exactly_lone stFin rootA [] effFin stFinAfter (by decide)).2.2.2⟩

/-- C3 (amended): with no multipart restore active and the engine writable,
`Finalize` of a root at version V returns `AlreadyFinalized` exactly when some
version has already been finalized and V does not exceed it, and returns
`NotFinalized` exactly when some version has already been finalized, V is
positive and the last finalized version is smaller than V − 1.  In particular,
when nothing has been finalized yet the version checks pass for every V — the
first finalization may target any version. -/
theorem finalize_version_checks (st : DBState) (r : Root)
    (hro : st.readOnly = false) (hmp : st.multipartVersion = 0) :
    ((finalize st [r]).1 = .error .alreadyFinalized ↔
      ∃ l, st.meta.lastFinalizedVersion = some l ∧ r.version ≤ l) ∧
    ((finalize st [r]).1 = .error .notFinalized ↔
      ∃ l, st.meta.lastFinalizedVersion = some l ∧ 0 < r.version ∧ l < r.version - 1) := by
  have hbody := finalizeBody_no_version_error st r.version
    (([r].map TypedHash.fromRoot).toFinset)
  cases hl : st.meta.lastFinalizedVersion with
  | none =>
    have hcheck : finalizeVersionCheck 0 st.meta.lastFinalizedVersion r.version = none := by
      rw [hl]; rfl
    have heq : finalize st [r] =
        finalizeBody st r.version (([r].map TypedHash.fromRoot).toFinset) := by
      simp [finalize, hro, hmp, hcheck]
    rw [heq]
    exact ⟨iff_of_false (hbody.1 ·) (by simp), iff_of_false (hbody.2 ·) (by simp)⟩
  | some l =>
    by_cases h1 : 0 < r.version ∧ l < r.version - 1
    · have hcheck : finalizeVersionCheck 0 st.meta.lastFinalizedVersion r.version =
          some .notFinalized := by
        rw [hl]; simp [finalizeVersionCheck, h1.1, h1.2]
      have heq : finalize st [r] = (.error .notFinalized, st) := by
        simp [finalize, hro, hmp, hcheck]
      rw [heq]
      constructor
      · refine iff_of_false (by simp) ?_
        rintro ⟨lv, hlv, hle⟩
        obtain rfl := Option.some.inj hlv
        obtain ⟨h1a, h1b⟩ := h1
        omega
      · exact iff_of_true rfl ⟨l, rfl, h1.1, h1.2⟩
    · by_cases h2 : r.version ≤ l
      · have hcheck : finalizeVersionCheck 0 st.meta.lastFinalizedVersion r.version =
            some .alreadyFinalized := by
          rw [hl]; simp [finalizeVersionCheck, h1, h2]
        have heq : finalize st [r] = (.error .alreadyFinalized, st) := by
          simp [finalize, hro, hmp, hcheck]
        rw [heq]
        constructor
        · exact iff_of_true rfl ⟨l, rfl, h2⟩
        · refine iff_of_false (by simp) ?_
          rintro ⟨lv, hlv, h0, hlt⟩
          obtain rfl := Option.some.inj hlv
          exact h1 ⟨h0, hlt⟩
      · have hcheck : finalizeVersionCheck 0 st.meta.lastFinalizedVersion r.version =
            none := by
          rw [hl]; simp [finalizeVersionCheck, h1, h2]
        have heq : finalize st [r] =
            finalizeBody st r.version (([r].map TypedHash.fromRoot).toFinset) := by
          simp [finalize, hro, hmp, hcheck]
        rw [heq]
        constructor
        · refine iff_of_false (hbody.1 ·) ?_
          rintro ⟨lv, hlv, hle⟩
          obtain rfl := Option.some.inj hlv
          exact h2 hle
        · refine iff_of_false (hbody.2 ·) ?_
          rintro ⟨lv, hlv, h0, hlt⟩
          obtain rfl := Option.some.inj hlv
          exact h1 ⟨h0, hlt⟩

/-- C3 witness: in `stPruned` (last finalized version 6) finalizing version 4
returns `AlreadyFinalized`. -/
theorem finalize_version_checks_witness :
    (finalize stPruned [⟨7, 4, RootType.state, 0⟩]).1 = .error .alreadyFinalized :=
  (finalize_version_checks stPruned ⟨7, 4, RootType.state, 0⟩ rfl rfl).1.mpr
    ⟨6, rfl, by decide⟩

/-! ### Write-log search lemmas (C5) -/

theorem wlEdges_mem (logs : List WLKey) (v : Nat) (cur x : TypedHash) :
    x ∈ wlEdges logs v cur ↔ (⟨v, cur, x⟩ : WLKey) ∈ logs := by
  unfold wlEdges
  simp only [List.mem_map, List.mem_filter, Bool.and_eq_true, beq_iff_eq]
  constructor
  · rintro ⟨k, ⟨hk, hv, hn⟩, ho⟩
    cases k
    subst hv; subst hn; subst ho
    exact hk
  · intro hk
    exact ⟨⟨v, cur, x⟩, ⟨hk, rfl, rfl⟩, rfl⟩

theorem wlChainLe2_eq_true_iff (logs : List WLKey) (v : Nat) (s e : TypedHash) :
    wlChainLe2 logs v s e = true ↔
      ((⟨v, e, s⟩ : WLKey) ∈ logs ∨
        ∃ m, (⟨v, e, m⟩ : WLKey) ∈ logs ∧ (⟨v, m, s⟩ : WLKey) ∈ logs) := by
  unfold wlChainLe2
  simp only [Bool.or_eq_true, List.any_eq_true, Bool.and_eq_true, beq_iff_eq]
  constructor
  · rintro (⟨k, hk, rfl⟩ | ⟨k, hk, ⟨⟨hv, hn⟩, k2, hk2, rfl⟩⟩)
    · exact Or.inl hk
    · cases k
      subst hv; subst hn
      exact Or.inr ⟨_, hk, hk2⟩
  · rintro (hk | ⟨m, hk, hk2⟩)
    · exact Or.inl ⟨_, hk, rfl⟩
    · exact Or.inr ⟨⟨v, e, m⟩, hk, ⟨⟨rfl, rfl⟩, ⟨v, m, s⟩, hk2, rfl⟩⟩

theorem wlBFS_depth_one (logs : List WLKey) (v : Nat) (startH : TypedHash) :
    ∀ (l : List TypedHash) (fuel : Nat), l.length ≤ fuel →
      wlBFS logs v startH fuel (l.map (fun n => (1, n))) =
        l.any (fun m => (wlEdges logs v m).any (fun n => n == startH)) := by
  intro l
  induction l with
  | nil => intro fuel _; cases fuel <;> simp [wlBFS]
  | cons m t ih =>
    intro fuel hf
    cases fuel with
    | zero => simp at hf
    | succ f =>
      rw [List.map_cons]
      by_cases hm : (wlEdges logs v m).any (fun n => n == startH)
      · simp [wlBFS, hm]
      · have hlen : t.length ≤ f := by simpa using hf
        simp only [wlBFS, hm, if_false, List.any_cons]
        rw [if_neg (by simp [hm])]
        simp only [show ¬(1 + 1 < 2) by omega, if_false, List.append_nil]
        rw [ih f hlen]
        simp [hm]

theorem wlBFS_from_root (logs : List WLKey) (v : Nat) (startH endH : TypedHash) :
    wlBFS logs v startH (logs.length + 2) [(0, endH)] =
      wlChainLe2 logs v startH endH := by
  have hlen : (wlEdges logs v endH).length ≤ logs.length + 1 := by
    have h1 : (wlEdges logs v endH).length ≤ logs.length := by
      unfold wlEdges
      rw [List.length_map]
      exact List.length_filter_le _ _
    omega
  by_cases hdirect : (wlEdges logs v endH).any (fun n => n == startH)
  · have h1 : wlBFS logs v startH (logs.length + 2) [(0, endH)] = true := by
      simp [wlBFS, hdirect]
    rw [h1]
    obtain ⟨n, hn, hbeq⟩ := List.any_eq_true.mp hdirect
    have hns : n = startH := by simpa using hbeq
    rw [hns] at hn
    exact ((wlChainLe2_eq_true_iff logs v startH endH).mpr
      (Or.inl ((wlEdges_mem logs v endH startH).mp hn))).symm
  · have h1 : wlBFS logs v startH (logs.length + 2) [(0, endH)] =
        wlBFS logs v startH (logs.length + 1)
          ((wlEdges logs v endH).map (fun n => (1, n))) := by
      simp only [wlBFS, hdirect, if_false]
      rw [if_neg (by simp [hdirect])]
      simp
    rw [h1, wlBFS_depth_one logs v startH _ _ hlen]
    cases hres : (wlEdges logs v endH).any
        (fun m => (wlEdges logs v m).any (fun n => n == startH)) with
    | true =>
      obtain ⟨m, hm, hinner⟩ := List.any_eq_true.mp hres
      obtain ⟨n, hn, hbeq⟩ := List.any_eq_true.mp hinner
      have hns : n = startH := by simpa using hbeq
      rw [hns] at hn
      exact ((wlChainLe2_eq_true_iff logs v startH endH).mpr
        (Or.inr ⟨m, (wlEdges_mem logs v endH m).mp hm,
          (wlEdges_mem logs v m startH).mp hn⟩)).symm
    | false =>
      cases hchain : wlChainLe2 logs v startH endH with
      | false => rfl
      | true =>
        exfalso
        rcases (wlChainLe2_eq_true_iff logs v startH endH).mp hchain with hk | ⟨m, hk, hk2⟩
        · have hmem : startH ∈ wlEdges logs v endH :=
            (wlEdges_mem logs v endH startH).mpr hk
          exact hdirect (List.any_eq_true.mpr ⟨startH, hmem, by simp⟩)
        · have hm : m ∈ wlEdges logs v endH := (wlEdges_mem logs v endH m).mpr hk
          have hsm : startH ∈ wlEdges logs v m := (wlEdges_mem logs v m startH).mpr hk2
          have hmem : ((wlEdges logs v endH).any
              fun m2 => (wlEdges logs v m2).any fun n => n == startH) = true :=
            List.any_eq_true.mpr ⟨m, hm, List.any_eq_true.mpr ⟨startH, hsm, by simp⟩⟩
          rw [hres] at hmem
          exact Bool.false_ne_true hmem

/-- C5 (amended): provided the preliminary checks pass — the end root follows
the start root, the start root is in the engine's namespace, and the end root's
`rootNode` marker is present whenever write logs are kept and the end root's
version is not below the earliest — `GetWriteLog` returns `WriteLogNotFound`
exactly when write logs are discarded by configuration, or the end root's
version lies below the earliest version, or no chain of at most two stored
write-log records leads from the start root to the end root at the end root's
version.  (When a preliminary check fails, `RootMustFollowOld`, `BadNamespace`
or `RootNotFound` is returned instead.) -/
theorem getWriteLog_wlnf_iff (st : DBState) (startRoot endRoot : Root)
    (hf : Root.follows endRoot startRoot = true)
    (hns : startRoot.ns = st.ns)
    (hmark : st.discardWriteLogs = false → ¬endRoot.version < st.meta.earliestVersion →
      rootMarkVisible st endRoot = true) :
    getWriteLog st startRoot endRoot = .writeLogNotFound ↔
      (st.discardWriteLogs = true ∨ endRoot.version < st.meta.earliestVersion ∨
        wlChainLe2 st.writeLogs endRoot.version (TypedHash.fromRoot startRoot)
          (TypedHash.fromRoot endRoot) = false) := by
  by_cases hd : st.discardWriteLogs
  · simp [getWriteLog, hd]
  · by_cases hv : endRoot.version < st.meta.earliestVersion
    · simp [getWriteLog, hd, hf, hns, hv]
    · have hm := hmark (by simpa using hd) hv
      have hbfs := wlBFS_from_root st.writeLogs endRoot.version
        (TypedHash.fromRoot startRoot) (TypedHash.fromRoot endRoot)
      cases hc : wlChainLe2 st.writeLogs endRoot.version (TypedHash.fromRoot startRoot)
          (TypedHash.fromRoot endRoot) with
      | true => simp [getWriteLog, hd, hf, hns, hv, hm, hbfs, hc]
      | false => simp [getWriteLog, hd, hf, hns, hv, hm, hbfs, hc]

/-- C5 witness: `stWL3` stores exactly a three-hop write-log chain from
`rootWLStart` to `rootWLEnd`, so there is no chain of at most two hops and
`GetWriteLog` returns `WriteLogNotFound`. -/
theorem getWriteLog_wlnf_iff_witness :
    getWriteLog stWL3 rootWLStart rootWLEnd = .writeLogNotFound :=
  (getWriteLog_wlnf_iff stWL3 rootWLStart rootWLEnd (by decide) rfl
    (fun _ _ => by decide)).mpr (Or.inr (Or.inr (by decide)))

/-- C8 (amended): for every root below the earliest version in the engine's
namespace, `GetNode` returns `NodeNotFound` for every pointer hash; `HasRoot`
returns `false` provided the root's hash is non-empty (the empty root is
implicitly present at every version and reports `true`); `GetWriteLog` with
that root as end root returns `WriteLogNotFound` for every start root passing
the follows and namespace checks; and `GetRootsForVersion` returns the empty
list. -/
theorem below_earliest_reports_absence (st : DBState) (root : Root)
    (hns : root.ns = st.ns) (hv : root.version < st.meta.earliestVersion) :
    (∀ ptrHash, getNode st root ptrHash = .nodeNotFound) ∧
    (root.hash ≠ emptyHash → hasRoot st root = false) ∧
    (∀ startRoot, Root.follows root startRoot = true → startRoot.ns = st.ns →
      getWriteLog st startRoot root = .writeLogNotFound) ∧
    getRootsForVersion st root.version = [] := by
  refine ⟨fun ptrHash => by simp [getNode, hns, hv],
    fun hne => by simp [hasRoot, hns, hne, hv],
    fun startRoot hfol hns2 => ?_,
    by simp [getRootsForVersion, hv]⟩
  by_cases hd : st.discardWriteLogs <;> simp [getWriteLog, hd, hfol, hns2, hv]

/-- C8 witness: in `stPruned` (earliest version 5) the non-empty root
`(7, 3, state, 9)` reports absence through all four queries. -/
theorem below_earliest_reports_absence_witness :
    getNode stPruned ⟨7, 3, RootType.state, 9⟩ 5 = .nodeNotFound ∧
      hasRoot stPruned ⟨7, 3, RootType.state, 9⟩ = false ∧
      getWriteLog stPruned ⟨7, 3, RootType.state, 0⟩ ⟨7, 3, RootType.state, 9⟩ =
        .writeLogNotFound ∧
      getRootsForVersion stPruned 3 = [] :=
  ⟨(below_earliest_reports_absence stPruned ⟨7, 3, RootType.state, 9⟩ rfl
      (by decide)).1 5,
   (below_earliest_reports_absence stPruned ⟨7, 3, RootType.state, 9⟩ rfl
      (by decide)).2.1 (by decide),
   (below_earliest_reports_absence stPruned ⟨7, 3, RootType.state, 9⟩ rfl
      (by decide)).2.2.1 ⟨7, 3, RootType.state, 0⟩ (by decide) rfl,
   (below_earliest_reports_absence stPruned ⟨7, 3, RootType.state, 9⟩ rfl
      (by decide)).2.2.2⟩
